import Mathlib

namespace Codedove

/-!
Verification of the codedove turn-observation pipeline and session
lifecycle manager.  The transcript reader, the session index, the pane
locator, the turn watcher, the watcher manager, the permission bridge and
the Telegram text-turn handler are embedded shallowly as executable Lean
functions, and the stated behavioural properties are proved about them.
-/

/-! ## JSONL transcript data model

A transcript is a newline-delimited sequence of JSON records.  A content
block is a duck-typed JSON object; we carry the fields the reader
inspects (`type`, `text`, `name`, `input`).  JavaScript truthiness on an
optional string field (absent or empty string means falsy) is modelled
by `truthyS`. -/

/-- Tool input, `Record<string, unknown>` in the source, modelled as an
association list from field name to a printed value. -/
abbrev ToolInput := List (String × String)

/-- A content block of an assistant record:
`{type:"text", text}` or `{type:"tool_use", name, input}` or anything
else.  Optional fields mirror the duck typing of the source. -/
structure Block where
  type : String
  text : Option String := none
  name : Option String := none
  input : Option ToolInput := none
deriving DecidableEq, Repr

/-- One parsed JSON record of a transcript:
`{type, cwd?, message:{content:[...]}}`.  `content = none` models a
record with no `message.content` (the source reads
`entry.message?.content ?? []`). -/
structure Entry where
  type : String
  cwd : Option String := none
  content : Option (List Block) := none
deriving DecidableEq, Repr

/-- One line of a transcript file: the raw text together with the
outcome of `JSON.parse` on it (`none` models a parse failure). -/
structure JsonlLine where
  raw : String
  parsed : Option Entry := none
deriving DecidableEq, Repr

/-- JavaScript truthiness of an optional string: absent and the empty
string are falsy. -/
def truthyS : Option String → Bool
  | none => false
  | some s => !(s == "")

/-- A recorded tool call `{name, input}` (the source applies
`input ?? {}`). -/
structure ToolCall where
  name : String
  input : ToolInput
deriving DecidableEq, Repr

/-- The result of `parseJsonlLines`. -/
structure ParsedSession where
  cwd : String
  lastMessage : String
  toolCalls : List ToolCall
  allMessages : List String
deriving DecidableEq, Repr

/-- JavaScript `String.prototype.trim`: strip leading and trailing
whitespace. -/
def jsTrim (s : String) : String :=
  String.mk (((s.data.dropWhile Char.isWhitespace).reverse.dropWhile
    Char.isWhitespace).reverse)

/-- The source computes `block.text.slice(0, 200).replace(/\n/g, " ")`:
truncation to 200 characters followed by replacing each newline with a
space. -/
def jsTruncate200 (s : String) : String :=
  String.mk ((s.data.take 200).map fun c => if c = '\n' then ' ' else c)

/-- Processing of one content block of an assistant record, mirroring
the two independent conditionals of the source loop body. -/
def processBlock (st : ParsedSession) (b : Block) : ParsedSession :=
  let st :=
    if b.type == "text" && truthyS b.text then
      { st with lastMessage := jsTruncate200 (b.text.getD "")
                allMessages := st.allMessages ++ [b.text.getD ""] }
    else st
  if b.type == "tool_use" && truthyS b.name then
    { st with toolCalls := st.toolCalls ++ [⟨b.name.getD "", b.input.getD []⟩] }
  else st

/-- Processing of one line: skip blank lines, skip lines that failed to
parse, and let only records with `type == "assistant"` contribute.
`home` is the result of `homedir()`. -/
def processLine (home : String) (st : ParsedSession) (l : JsonlLine) : ParsedSession :=
  if jsTrim l.raw == "" then st
  else
    match l.parsed with
    | none => st
    | some e =>
      if e.type == "assistant" then
        let st :=
          if truthyS e.cwd && st.cwd == home then { st with cwd := e.cwd.getD "" } else st
        (e.content.getD []).foldl processBlock st
      else st

/-- Function `parseJsonlLines` from `session/history.ts`: fold the line processor
over the input lines starting from the defaults. -/
def parseJsonlLines (home : String) (lines : List JsonlLine) : ParsedSession :=
  lines.foldl (processLine home)
    { cwd := home, lastMessage := "", toolCalls := [], allMessages := [] }

/-! Specification-side description of the text blocks: the texts of the
truthy text blocks of assistant records, in file order. -/

/-- The truthy text blocks contributed by one list of content blocks. -/
def blockTexts (bs : List Block) : List String :=
  bs.filterMap fun b =>
    if b.type == "text" && truthyS b.text then some (b.text.getD "") else none

/-- The text blocks contributed by one line: empty unless the line is
non-blank, parses, and is an assistant record. -/
def lineTexts (l : JsonlLine) : List String :=
  if jsTrim l.raw == "" then []
  else
    match l.parsed with
    | none => []
    | some e => if e.type == "assistant" then blockTexts (e.content.getD []) else []

/-- All assistant text blocks of a list of lines, in order. -/
def assistantTexts (lines : List JsonlLine) : List String :=
  lines.flatMap lineTexts

/-! ## TurnWatcher (`watchForResponse`)

Modelled from the spec: the source file `session/monitor.ts` is not in
the repository snapshot (only its tests are), so the watcher is modelled
from the specification of the TurnWatcher: it watches one file from a
captured byte baseline; on each change it reads the content past a local
cursor (initialised to the baseline) as lines, parses them, delivers each
new assistant text block to the response callback, and maintains a set of
already-emitted texts to suppress duplicates even when the same assistant
block is flushed twice.  The file is modelled at record granularity (the
transcript is append-only and newline-delimited, so byte offsets of the
baseline and cursor correspond to record counts). -/

/-- The state of one watch: the read cursor, the set of already-emitted
texts, the ordered log of texts delivered to the response callback, and
whether `stop()` has been called. -/
structure WatchState where
  cursor : Nat
  emitted : List String
  delivered : List String
  terminated : Bool
deriving DecidableEq, Repr

/-- A watch starts with its cursor at the baseline and nothing
emitted. -/
def watchInit (baselineSize : Nat) : WatchState :=
  { cursor := baselineSize, emitted := [], delivered := [], terminated := false }

/-- Deliver a list of freshly parsed texts: a text already in the
emitted set is suppressed, any other is delivered once and recorded. -/
def emitTexts (st : WatchState) (texts : List String) : WatchState :=
  texts.foldl
    (fun st t =>
      if t ∈ st.emitted then st
      else { st with emitted := st.emitted ++ [t], delivered := st.delivered ++ [t] })
    st

/-- One filesystem-change event: read the records past the cursor,
deliver their assistant text blocks, and advance the cursor so the same
range is not re-read.  Events after `stop()` are dropped. -/
def watchChange (file : List JsonlLine) (st : WatchState) : WatchState :=
  if st.terminated then st
  else
    let st := emitTexts st (assistantTexts (file.drop st.cursor))
    { st with cursor := max st.cursor file.length }

/-- Calling `stop()` closes the watcher; later change events are no-ops. -/
def watchStop (st : WatchState) : WatchState :=
  { st with terminated := true }

/-- A whole watch: the state after a sequence of file snapshots has been
observed, starting from the baseline. -/
def runWatch (baselineSize : Nat) (snaps : List (List JsonlLine)) : WatchState :=
  snaps.foldl (fun st f => watchChange f st) (watchInit baselineSize)

/-! ## WatcherManager

Modelled from the spec: the source file `session/watcher-manager.ts` is
not in the repository snapshot (only its tests are), so the manager is
modelled from the specification of the WatcherManager (singleton owner
of at most one active TurnWatcher, a monotonic generation counter, a
compaction poll attached to the current generation).  Each
`startInjectionWatcher` call is given a fresh identifier; the list
`completed` logs, in order, the identifier of every call whose
`onComplete` callback has been invoked.  All completion paths go
through dropping the stored `activeOnComplete` reference, and a
compaction poll of a superseded generation aborts silently. -/

/-- The identity of the watch owned by the manager: the identifier of
the `startInjectionWatcher` call and the generation it was started
under. -/
structure ActiveWatch where
  id : Nat
  gen : Nat
deriving DecidableEq, Repr

/-- The manager state: generation counter, the active watch (the stored
`activeStop` and `activeOnComplete` references), the next fresh call
identifier, and the log of calls whose `onComplete` has fired. -/
structure ManagerState where
  generation : Nat
  active : Option ActiveWatch
  nextId : Nat
  completed : List Nat
deriving DecidableEq, Repr

/-- Initial manager state: inactive. -/
def managerInit : ManagerState :=
  { generation := 0, active := none, nextId := 0, completed := [] }

/-- The events of the manager lifecycle. -/
inductive MEvent where
  /-- A `startInjectionWatcher` call; the flag records whether a session file
  was resolved (when not, `onComplete` fires immediately). -/
  | start (hasSessionFile : Bool)
  /-- The active TurnWatcher terminates: `result` record seen or hard
  idle timeout. -/
  | watcherEnd
  /-- A `stopAndFlush()` call: a new user message supersedes the running
  turn. -/
  | stopAndFlush
  /-- The compaction poll rearms the watcher on a rotated session file
  (same outer callbacks, no completion). -/
  | pollRotate
  /-- The compaction poll of generation `gen` gives up after 60 s. -/
  | pollTimeout (gen : Nat)
  /-- A `clear()` call: drop the watcher without firing completion. -/
  | clear
deriving DecidableEq, Repr

/-- Fire the stored `onComplete` of the active watch, if any, and drop
the references. -/
def flushActive (s : ManagerState) : ManagerState :=
  match s.active with
  | none => s
  | some w => { s with active := none, completed := s.completed ++ [w.id] }

/-- One step of the manager. -/
def managerStep (s : ManagerState) : MEvent → ManagerState
  | .start true =>
    let t := flushActive s
    { t with generation := t.generation + 1,
             active := some ⟨t.nextId, t.generation + 1⟩, nextId := t.nextId + 1 }
  | .start false =>
    let t := flushActive s
    { t with generation := t.generation + 1, active := none,
             completed := t.completed ++ [t.nextId], nextId := t.nextId + 1 }
  | .watcherEnd => flushActive s
  | .stopAndFlush => flushActive s
  | .pollRotate => s
  | .pollTimeout g =>
    match s.active with
    | some w => if w.gen = g ∧ g = s.generation then flushActive s else s
    | none => s
  | .clear => { s with active := none }

/-- The manager state after a sequence of events from startup. -/
def managerRun (evs : List MEvent) : ManagerState :=
  evs.foldl managerStep managerInit

/-- The inductive invariant of the manager: completions are
duplicate-free and refer to started calls, the active watch is a
started call that has not completed, and (absent `clear`) every started
call has either completed or is the active one. -/
def ManagerInv (s : ManagerState) : Prop :=
  s.completed.Nodup ∧
  (∀ id ∈ s.completed, id < s.nextId) ∧
  (∀ w, s.active = some w → w.id < s.nextId ∧ w.id ∉ s.completed) ∧
  (∀ id, id < s.nextId → id ∈ s.completed ∨ ∃ w, s.active = some w ∧ w.id = id)

/-! ## SessionIndex (`listSessions`)

Modelled from the spec: the current `session/history.ts` revision with
the per-directory dedup and the `projectsRoot` parameter is not in the
repository snapshot (only its tests and an earlier prototype without
dedup are), so `listSessions` is modelled from the specification of the
SessionIndex (4.7): enumerate every subdirectory of the projects root;
within each directory keep only the newest file, by mtime, among those
ending in the newline-JSON extension; sort globally by mtime descending
and truncate to the limit.  A directory is a name with its files; file
parsing is abstracted to the `lastMessage` each file would yield. -/

/-- One file of a project directory: name, mtime and the last-assistant
summary its contents parse to. -/
structure SessFile where
  name : String
  mtime : Nat
  lastMessage : String
deriving DecidableEq, Repr

/-- One subdirectory of the projects root. -/
structure ProjectDir where
  dirName : String
  files : List SessFile
deriving DecidableEq, Repr

/-- One entry of the session list; `dirName` records which project
directory the entry came from (`projectName` is a pure decoding of it,
irrelevant to the listed properties). -/
structure SessionEntry where
  sessionId : String
  dirName : String
  lastMessage : String
  mtime : Nat
deriving DecidableEq, Repr

/-- Whether a file name ends with the newline-JSON extension. -/
def hasJsonlExt (name : String) : Bool :=
  ".jsonl".data.isSuffixOf name.data

/-- Computation of `file.replace(".jsonl", "")` on a name with the extension: drop the
six-character suffix. -/
def stripJsonlExt (name : String) : String :=
  String.mk (name.data.take (name.data.length - 6))

/-- The newest `.jsonl` file of a directory by mtime, if any. -/
def newestJsonl (files : List SessFile) : Option SessFile :=
  (files.filter fun f => hasJsonlExt f.name).foldl
    (fun acc f =>
      match acc with
      | none => some f
      | some g => if g.mtime < f.mtime then some f else some g)
    none

/-- The session-list entry a directory contributes, from its newest
`.jsonl` file. -/
def dirEntry (d : ProjectDir) : Option SessionEntry :=
  (newestJsonl d.files).map fun f =>
    { sessionId := stripJsonlExt f.name, dirName := d.dirName
      lastMessage := f.lastMessage, mtime := f.mtime }

/-- Mtime-descending order on entries. -/
def entryGE (a b : SessionEntry) : Prop := b.mtime ≤ a.mtime

instance : DecidableRel entryGE := fun a b => by
  unfold entryGE; infer_instance

instance : IsTotal SessionEntry entryGE :=
  ⟨fun a b => le_total b.mtime a.mtime⟩

instance : IsTrans SessionEntry entryGE :=
  ⟨fun _ _ _ hab hbc => le_trans hbc hab⟩

/-- Function `listSessions`: one candidate entry per project directory (the
newest `.jsonl` file), sorted globally by mtime descending, truncated
to the limit. -/
def listSessions (limit : Nat) (root : List ProjectDir) : List SessionEntry :=
  ((root.filterMap dirEntry).insertionSort entryGE).take limit

/-! ## PaneLocator (`findClaudePane`)

Modelled from the spec: the current `session/tmux.ts` revision with the
child-start-time tie-break is not in the repository snapshot (only its
tests are), so the locator is modelled from the specification of the
PaneLocator (4.1): filter panes whose command is recognisable as the
agent (the literal `claude` as a substring, or a three-field dotted
semver string); a unique exact cwd match wins, else a unique strict
parent-directory match, else multiple candidates are tie-broken by the
start time of the agent child process of each pane shell (an
undeterminable start time counts as 0), else a single remaining
candidate is used, else the lookup fails with a reason.  The locator is
a pure Lean function of the pane list, the target cwd and the
child-start-time table, so determinism is definitional. -/

/-- One enumerated multiplexer pane. -/
structure TmuxPane where
  paneId : String
  shellPid : Nat
  command : String
  cwd : String
deriving DecidableEq, Repr

/-- Substring test (the regex-free `command.includes("claude")`). -/
def containsSub (s sub : String) : Bool :=
  s.data.tails.any fun t => sub.data.isPrefixOf t

/-- Split a character list at dots. -/
def splitOnDot : List Char → List (List Char)
  | [] => [[]]
  | c :: rest =>
    let r := splitOnDot rest
    if c = '.' then [] :: r
    else
      match r with
      | [] => [[c]]
      | h :: t => (c :: h) :: t

/-- A three-field dotted semver string such as `2.1.47` (the agent
advertises its version as the process title). -/
def isVersionString (s : String) : Bool :=
  let parts := splitOnDot s.data
  parts.length == 3 && parts.all fun p => !p.isEmpty && p.all Char.isDigit

/-- Whether a pane runs the agent. -/
def isClaudePane (p : TmuxPane) : Bool :=
  containsSub p.command "claude" || isVersionString p.command

/-- String-prefix test on characters. -/
def strStartsWith (s pre : String) : Bool :=
  pre.data.isPrefixOf s.data

/-- Failure reasons of the locator. -/
inductive FindReason where
  | no_tmux
  | no_claude_pane
  | ambiguous
deriving DecidableEq, Repr

/-- The result of the locator. -/
inductive FindResult where
  | found (paneId : String)
  | notFound (reason : FindReason)
deriving DecidableEq, Repr

/-- The pane maximising a measure, scanning left to right and keeping
the earlier pane on ties. -/
def pickNewest (f : TmuxPane → Nat) (ps : List TmuxPane) : Option TmuxPane :=
  ps.foldl
    (fun acc p =>
      match acc with
      | none => some p
      | some q => if f q < f p then some p else some q)
    none

/-- The child start time of a pane shell, with an undeterminable start
time treated as 0. -/
def paneStart (childStart : Nat → Option Nat) (p : TmuxPane) : Nat :=
  (childStart p.shellPid).getD 0

/-- Function `findClaudePane`: locate the agent pane for a target cwd.
`childStart` is the process-tree lookup of the start time of the agent
child of a shell pid. -/
def findClaudePane (childStart : Nat → Option Nat) (panes : List TmuxPane)
    (targetCwd : String) : FindResult :=
  if panes.isEmpty then .notFound .no_tmux
  else if (panes.filter isClaudePane).isEmpty then .notFound .no_claude_pane
  else
    match (panes.filter isClaudePane).filter (fun p => p.cwd == targetCwd) with
    | [p] => .found p.paneId
    | [] =>
      match (panes.filter isClaudePane).filter
          (fun p => strStartsWith targetCwd (p.cwd ++ "/")) with
      | [p] => .found p.paneId
      | _ =>
        match panes.filter isClaudePane with
        | [p] => .found p.paneId
        | _ => .notFound .ambiguous
    | p :: q :: rest =>
      match pickNewest (paneStart childStart) (p :: q :: rest) with
      | some m => .found m.paneId
      | none => .notFound .ambiguous

/-! ## WaitingClassifier (`classifyWaitingType`)

Modelled from the spec: the current `session/monitor.ts` revision is not
in the repository snapshot, so the classifier is modelled from the
specification of the WaitingClassifier (4.10): case-insensitive matches
of the y/n, bracketed y/N and `confirm?` patterns give `YES_NO`;
`press enter` / `hit enter` (any run of whitespace between the words)
give `ENTER`; a trailing question mark on trimmed text longer than 10
characters gives `QUESTION`; otherwise none.  `MULTIPLE_CHOICE` is
produced from the ExitPlanMode flag outside the text classifier. -/

/-- The waiting-state tags. -/
inductive WaitingType where
  | YES_NO
  | ENTER
  | QUESTION
  | MULTIPLE_CHOICE
deriving DecidableEq, Repr

/-- Case-insensitive substring test. -/
def containsSubCI (s pat : String) : Bool :=
  (s.data.map Char.toLower).tails.any fun t =>
    (pat.data.map Char.toLower).isPrefixOf t

/-- Case-insensitive test for `w1`, one or more whitespace characters,
then `w2` (the `\s+` of the source patterns). -/
def containsSpacedCI (s w1 w2 : String) : Bool :=
  (s.data.map Char.toLower).tails.any fun t =>
    (w1.data.map Char.toLower).isPrefixOf t &&
      (let r := t.drop w1.data.length
       !(r.takeWhile Char.isWhitespace).isEmpty &&
         (w2.data.map Char.toLower).isPrefixOf (r.dropWhile Char.isWhitespace))

/-- The y/n prompt patterns. -/
def yesNoMatch (t : String) : Bool :=
  containsSubCI t "(y/n)" || containsSubCI t "[y/n]" || containsSubCI t "confirm?"

/-- The press/hit-enter prompt patterns. -/
def enterMatch (t : String) : Bool :=
  containsSpacedCI t "press" "enter" || containsSpacedCI t "hit" "enter"

/-- Function `classifyWaitingType`: classify an assistant tail text. -/
def classifyWaitingType (text : String) : Option WaitingType :=
  let trimmed := jsTrim text
  if yesNoMatch trimmed then some .YES_NO
  else if enterMatch trimmed then some .ENTER
  else if (trimmed.data.getLast? == some '?') && decide (10 < trimmed.length) then
    some .QUESTION
  else none

/-! ## PermissionBridge (`respondToPermission`)

Modelled from the spec: the source file `telegram/permissions.ts` is not
in the repository snapshot (only its tests are), so the bridge response
is modelled from the specification of the PermissionBridge (4.8): the
bridge creates the config directory if missing (`mkdir` recursive) and
writes `<cfg>/permission-response-<requestId>` containing the literal
action string.  The filesystem is a list of directories and a map from
path to file content; a write replaces any previous content. -/

/-- A flat model of the filesystem the bridge touches. -/
structure BridgeFS where
  dirs : List String
  files : List (String × String)
deriving DecidableEq, Repr

/-- Overwriting file write. -/
def writeFileFS (fs : BridgeFS) (path content : String) : BridgeFS :=
  { fs with files := (path, content) :: fs.files.filter fun kv => !(kv.1 == path) }

/-- File read. -/
def readFileFS (fs : BridgeFS) (path : String) : Option String :=
  (fs.files.find? fun kv => kv.1 == path).map Prod.snd

/-- Recursive `mkdir(dir)`: a no-op when the directory
exists. -/
def mkdirRecursive (fs : BridgeFS) (dir : String) : BridgeFS :=
  if dir ∈ fs.dirs then fs else { fs with dirs := dir :: fs.dirs }

/-- The response-file path for a request id. -/
def permissionResponsePath (cfgDir requestId : String) : String :=
  cfgDir ++ "/permission-response-" ++ requestId

/-- Function `respondToPermission`: create the config directory if missing and
write the response file containing the literal action string. -/
def respondToPermission (cfgDir : String) (fs : BridgeFS)
    (requestId action : String) : BridgeFS :=
  writeFileFS (mkdirRecursive fs cfgDir)
    (permissionResponsePath cfgDir requestId) action

/-! ## SDK adapter (`runAgentTurn` from `src/sessions.ts`)

The per-chat session map is a list of `(chatId, sessionId)` pairs; the
message stream is a list of SDK messages carrying the fields the
adapter inspects.  A `result` record whose subtype is not `success`
makes the loop throw, modelled as `Except.error`; the session map is
returned alongside so the effect of the call on it is visible in both
outcomes. -/

/-- One message of the SDK stream. -/
structure SDKMessage where
  type : String
  subtype : Option String := none
  session_id : Option String := none
  result : String := ""
deriving DecidableEq, Repr

/-- The module-level `sessions` map. -/
abbrev Sessions := List (Nat × String)

/-- Lookup `sessions.get(chatId)`. -/
def sessionsGet (ss : Sessions) (chatId : Nat) : Option String :=
  (ss.find? fun kv => kv.1 == chatId).map Prod.snd

/-- Update `sessions.set(chatId, sid)`. -/
def sessionsSet (ss : Sessions) (chatId : Nat) (sid : String) : Sessions :=
  (chatId, sid) :: ss.filter fun kv => !(kv.1 == chatId)

/-- The `for await` loop body of `runAgentTurn`, over the message
stream: capture the session id from the `init` system message when
there is no existing session, record the result text on a successful
`result`, and throw on a non-success `result`. -/
def processMessages (existing : Option String) :
    List SDKMessage → String → Option String → Except String (String × Option String)
  | [], res, cap => .ok (res, cap)
  | m :: rest, res, cap =>
    let cap :=
      if m.type == "system" && m.subtype == some "init" && !truthyS existing then
        m.session_id
      else cap
    let res :=
      if m.type == "result" && m.subtype == some "success" then m.result else res
    if m.type == "result" && !(m.subtype == some "success") then
      .error ("Agent error (" ++ m.subtype.getD "undefined" ++ ")")
    else processMessages existing rest res cap

/-- Function `runAgentTurn` from `src/sessions.ts`: run the turn over the given
message stream; on success store a truthy captured session id and
narrate the result (with the no-output fallback); on a thrown error the
session map is left as it was. -/
def runAgentTurn (narrate : String → String) (ss : Sessions) (chatId : Nat)
    (msgs : List SDKMessage) : Except String String × Sessions :=
  match processMessages (sessionsGet ss chatId) msgs "" none with
  | .error e => (.error e, ss)
  | .ok (res, cap) =>
    (.ok (narrate (if res == "" then
        "The agent completed the task but produced no output." else res)),
     if truthyS cap then sessionsSet ss chatId (cap.getD "") else ss)

/-! ## Telegram text handler (`processTextTurn` from
`src/telegram/handlers/text.ts`)

The pending image-count branch at the top of `processTextTurn`: when a
pending image-count request is set and the reply parses as an integer
at least 1, the handler clears the pending count, sends
`min(parsed, max)` of the stored images (the stored list is shuffled
and sliced), deletes the `pendingImages` entry and returns without
starting a turn; otherwise it clears the pending count and falls
through to normal message handling.  The shuffle is an arbitrary
reordering passed as a parameter. -/

/-- An image held for the picker. -/
structure DetectedImage where
  data : String
  mediaType : String
deriving DecidableEq, Repr

/-- The `pendingImageCount` state: the pending key and the advertised
maximum. -/
structure PendingCount where
  key : String
  max : Nat
deriving DecidableEq, Repr

/-- The `pendingImages` map. -/
abbrev PendingImages := List (String × List DetectedImage)

/-- Lookup `pendingImages.get(key)`. -/
def pendingGet (m : PendingImages) (k : String) : Option (List DetectedImage) :=
  (m.find? fun kv => kv.1 == k).map Prod.snd

/-- Deletion `pendingImages.delete(key)`. -/
def pendingDelete (m : PendingImages) (k : String) : PendingImages :=
  m.filter fun kv => !(kv.1 == k)

/-- Decimal digits to a natural number. -/
def digitsToNat (l : List Char) : Nat :=
  l.foldl (fun n c => n * 10 + (c.toNat - 48)) 0

/-- JavaScript `parseInt(s, 10)` on a trimmed string: optional sign,
then leading digits; no digits at all gives NaN, modelled as `none`. -/
def jsParseInt (s : String) : Option Int :=
  let t := jsTrim s
  let signAndRest : Int × List Char :=
    match t.data with
    | '-' :: r => (-1, r)
    | '+' :: r => (1, r)
    | r => (1, r)
  let digits := signAndRest.2.takeWhile Char.isDigit
  if digits.isEmpty then none else some (signAndRest.1 * digitsToNat digits)

/-- What the branch does with the message. -/
inductive TurnAction where
  /-- Replied with these images and returned; no turn started. -/
  | sentImages (imgs : List DetectedImage)
  /-- Pending entry vanished; returned without sending. -/
  | noImages
  /-- Proceed to normal message handling (ensure session, inject, arm
  watcher). -/
  | fallThrough
deriving DecidableEq, Repr

/-- The image-picker state the branch reads and writes. -/
structure ImageState where
  pendingImageCount : Option PendingCount
  pendingImages : PendingImages
deriving DecidableEq, Repr

/-- The pending image-count branch of `processTextTurn`.  `shuffle`
models the random reordering `[...images].sort(() => Math.random() - 0.5)`. -/
def processTextTurnPendingCount
    (shuffle : List DetectedImage → List DetectedImage)
    (st : ImageState) (text : String) : TurnAction × ImageState :=
  match st.pendingImageCount with
  | none => (.fallThrough, st)
  | some pc =>
    match jsParseInt text with
    | some p =>
      if 1 ≤ p then
        let st2 : ImageState := { st with pendingImageCount := none }
        let n := min p.toNat pc.max
        match pendingGet st2.pendingImages pc.key with
        | some imgs =>
          (.sentImages ((shuffle imgs).take n),
           { st2 with pendingImages := pendingDelete st2.pendingImages pc.key })
        | none => (.noImages, st2)
      else (.fallThrough, { st with pendingImageCount := none })
    | none => (.fallThrough, { st with pendingImageCount := none })

/-! ## Theorems -/

lemma processBlock_fields (st : ParsedSession) (b : Block) :
    (processBlock st b).allMessages =
      st.allMessages ++
        (if b.type == "text" && truthyS b.text then [b.text.getD ""] else []) ∧
    (processBlock st b).lastMessage =
      (if b.type == "text" && truthyS b.text then jsTruncate200 (b.text.getD "")
       else st.lastMessage) := by
  unfold processBlock
  by_cases h1 : (b.type == "text" && truthyS b.text) = true <;>
    by_cases h2 : (b.type == "tool_use" && truthyS b.name) = true <;>
      simp [h1, h2]

lemma blockTexts_cons (b : Block) (bs : List Block) :
    blockTexts (b :: bs) =
      (if b.type == "text" && truthyS b.text then [b.text.getD ""] else []) ++
        blockTexts bs := by
  unfold blockTexts
  rw [List.filterMap_cons]
  by_cases h : (b.type == "text" && truthyS b.text) = true <;> simp [h]

lemma foldl_processBlock (bs : List Block) : ∀ st : ParsedSession,
    (bs.foldl processBlock st).allMessages = st.allMessages ++ blockTexts bs ∧
    (bs.foldl processBlock st).lastMessage =
      (blockTexts bs).foldl (fun _ t => jsTruncate200 t) st.lastMessage := by
  induction bs with
  | nil => intro st; simp [blockTexts]
  | cons b bs ih =>
    intro st
    obtain ⟨ha, hl⟩ := ih (processBlock st b)
    obtain ⟨hba, hbl⟩ := processBlock_fields st b
    refine ⟨?_, ?_⟩
    · rw [List.foldl_cons, ha, hba, blockTexts_cons, List.append_assoc]
    · rw [List.foldl_cons, hl, hbl, blockTexts_cons, List.foldl_append]
      by_cases h : (b.type == "text" && truthyS b.text) = true <;> simp [h]

lemma processLine_fields (home : String) (st : ParsedSession) (l : JsonlLine) :
    (processLine home st l).allMessages = st.allMessages ++ lineTexts l ∧
    (processLine home st l).lastMessage =
      (lineTexts l).foldl (fun _ t => jsTruncate200 t) st.lastMessage := by
  unfold processLine lineTexts
  by_cases ht : (jsTrim l.raw == "") = true
  · simp [ht]
  · simp only [ht, Bool.false_eq_true, if_false]
    cases hp : l.parsed with
    | none => simp
    | some e =>
      by_cases he : (e.type == "assistant") = true
      · simp only [he, if_true]
        by_cases hc : (truthyS e.cwd && st.cwd == home) = true <;>
          · simp only [hc, if_true, Bool.false_eq_true, if_false]
            exact foldl_processBlock (e.content.getD []) _
      · simp [he]

/-- A line that is blank, fails to parse, or is not an assistant record
leaves the parser state unchanged. -/
lemma processLine_skip (home : String) (st : ParsedSession) (l : JsonlLine)
    (h : jsTrim l.raw = "" ∨ l.parsed = none ∨
      ∃ e, l.parsed = some e ∧ e.type ≠ "assistant") :
    processLine home st l = st := by
  unfold processLine
  rcases h with h | h | ⟨e, he, hne⟩
  · simp [h]
  · by_cases ht : (jsTrim l.raw == "") = true
    · simp [ht]
    · simp [ht, h]
  · by_cases ht : (jsTrim l.raw == "") = true
    · simp [ht]
    · simp [ht, he, hne]

lemma assistantTexts_cons (l : JsonlLine) (ls : List JsonlLine) :
    assistantTexts (l :: ls) = lineTexts l ++ assistantTexts ls := by
  simp [assistantTexts]

lemma foldl_processLine (home : String) (lines : List JsonlLine) :
    ∀ st : ParsedSession,
    ((lines.foldl (processLine home) st).allMessages =
       st.allMessages ++ assistantTexts lines) ∧
    ((lines.foldl (processLine home) st).lastMessage =
       (assistantTexts lines).foldl (fun _ t => jsTruncate200 t) st.lastMessage) := by
  induction lines with
  | nil => intro st; simp [assistantTexts]
  | cons l ls ih =>
    intro st
    obtain ⟨ha, hl⟩ := ih (processLine home st l)
    obtain ⟨hpa, hpl⟩ := processLine_fields home st l
    refine ⟨?_, ?_⟩
    · rw [List.foldl_cons, ha, hpa, assistantTexts_cons, List.append_assoc]
    · rw [List.foldl_cons, hl, hpl, assistantTexts_cons, List.foldl_append]

/-- Folding a pure overwrite keeps the last element. -/
lemma foldl_overwrite (f : String → String) :
    ∀ (ts : List String) (d : String),
      ts.foldl (fun _ t => f t) d = ((ts.getLast?).map f).getD d := by
  intro ts
  induction ts with
  | nil => intro d; simp
  | cons t ts ih =>
    intro d
    rw [List.foldl_cons, ih (f t)]
    cases ts with
    | nil => simp
    | cons t2 ts2 =>
      rw [List.getLast?_cons_cons]
      cases hx : (t2 :: ts2).getLast? with
      | none => simp at hx
      | some x => simp [hx]

/-- C6.  `parseJsonlLines` skips blank and unparsable lines without
raising, lets only assistant records contribute, appends every truthy
text block to `allMessages` in order, and sets `lastMessage` to the most
recent text block truncated to 200 characters with newlines replaced by
spaces (the empty string when there is none). -/
theorem parseJsonlLines_spec (home : String) (lines : List JsonlLine) :
    (parseJsonlLines home lines).allMessages = assistantTexts lines ∧
    (parseJsonlLines home lines).lastMessage =
      (((assistantTexts lines).getLast?).map jsTruncate200).getD "" ∧
    ∀ st l, (jsTrim l.raw = "" ∨ l.parsed = none ∨
        ∃ e, l.parsed = some e ∧ e.type ≠ "assistant") →
      processLine home st l = st := by
  obtain ⟨ha, hl⟩ := foldl_processLine home lines
    { cwd := home, lastMessage := "", toolCalls := [], allMessages := [] }
  refine ⟨?_, ?_, fun st l h => processLine_skip home st l h⟩
  · simpa [parseJsonlLines] using ha
  · rw [parseJsonlLines, hl, foldl_overwrite]

lemma emitTexts_subset_nodup (texts : List String) : ∀ st : WatchState,
    (∀ t ∈ st.delivered, t ∈ st.emitted) → st.delivered.Nodup →
    (∀ t ∈ (emitTexts st texts).delivered, t ∈ (emitTexts st texts).emitted) ∧
      (emitTexts st texts).delivered.Nodup := by
  induction texts with
  | nil => intro st h1 h2; exact ⟨h1, h2⟩
  | cons t ts ih =>
    intro st h1 h2
    show (∀ u ∈ (emitTexts _ ts).delivered, _) ∧ _
    by_cases hm : t ∈ st.emitted
    · simp only [emitTexts, List.foldl_cons, if_pos hm]
      exact ih st h1 h2
    · simp only [emitTexts, List.foldl_cons, if_neg hm]
      refine ih _ ?_ ?_
      · intro u hu
        simp only [List.mem_append, List.mem_singleton] at hu ⊢
        rcases hu with hu | hu
        · exact Or.inl (h1 u hu)
        · exact Or.inr hu
      · refine List.Nodup.append h2 (List.nodup_singleton t) ?_
        intro u hu hu'
        rw [List.mem_singleton] at hu'
        subst hu'
        exact hm (h1 u hu)

lemma emitTexts_delivered_mem (texts : List String) : ∀ st : WatchState,
    ∀ t ∈ (emitTexts st texts).delivered, t ∈ st.delivered ∨ t ∈ texts := by
  induction texts with
  | nil => intro st t ht; exact Or.inl ht
  | cons u ts ih =>
    intro st t ht
    show t ∈ st.delivered ∨ t ∈ u :: ts
    by_cases hm : u ∈ st.emitted
    · simp only [emitTexts, List.foldl_cons, if_pos hm] at ht
      rcases ih st t ht with h | h
      · exact Or.inl h
      · exact Or.inr (List.mem_cons_of_mem u h)
    · simp only [emitTexts, List.foldl_cons, if_neg hm] at ht
      rcases ih _ t ht with h | h
      · simp only [List.mem_append, List.mem_singleton] at h
        rcases h with h | h
        · exact Or.inl h
        · exact Or.inr (h ▸ List.mem_cons_self u ts)
      · exact Or.inr (List.mem_cons_of_mem u h)

lemma emitTexts_cursor (texts : List String) : ∀ st : WatchState,
    (emitTexts st texts).cursor = st.cursor := by
  induction texts with
  | nil => intro st; rfl
  | cons u ts ih =>
    intro st
    show (emitTexts _ ts).cursor = _
    by_cases hm : u ∈ st.emitted
    · simp only [emitTexts, List.foldl_cons, if_pos hm]; exact ih st
    · simp only [emitTexts, List.foldl_cons, if_neg hm]; exact ih _

lemma assistantTexts_drop_subset (l : List JsonlLine) (m : Nat) :
    ∀ t ∈ assistantTexts (l.drop m), t ∈ assistantTexts l := by
  intro t ht
  rw [assistantTexts, List.mem_flatMap] at ht ⊢
  obtain ⟨line, hline, hmem⟩ := ht
  exact ⟨line, (List.drop_sublist m l).mem hline, hmem⟩

/-- C2.  For any single watch, each distinct assistant text block is
delivered to the response callback at most once, even when the same
block is appended to the file twice: the delivery log has no
duplicates. -/
theorem watchForResponse_dedup (baselineSize : Nat)
    (snaps : List (List JsonlLine)) :
    (runWatch baselineSize snaps).delivered.Nodup ∧
      ∀ t, (runWatch baselineSize snaps).delivered.count t ≤ 1 := by
  have key : ∀ (ss : List (List JsonlLine)) (st : WatchState),
      (∀ t ∈ st.delivered, t ∈ st.emitted) → st.delivered.Nodup →
      (∀ t ∈ (ss.foldl (fun st f => watchChange f st) st).delivered,
          t ∈ (ss.foldl (fun st f => watchChange f st) st).emitted) ∧
        (ss.foldl (fun st f => watchChange f st) st).delivered.Nodup := by
    intro ss
    induction ss with
    | nil => intro st h1 h2; exact ⟨h1, h2⟩
    | cons f fs ih =>
      intro st h1 h2
      rw [List.foldl_cons]
      by_cases hterm : st.terminated
      · exact ih _ (by simpa [watchChange, hterm] using h1)
          (by simpa [watchChange, hterm])
      · obtain ⟨g1, g2⟩ :=
          emitTexts_subset_nodup (assistantTexts (f.drop st.cursor)) st h1 h2
        exact ih _ (by simpa [watchChange, hterm] using g1)
          (by simpa [watchChange, hterm] using g2)
  have h := (key snaps (watchInit baselineSize) (by simp [watchInit])
    (by simp [watchInit])).2
  exact ⟨h, fun t => List.nodup_iff_count_le_one.mp h t⟩

/-- C3.  Pre-baseline blindness: every text delivered by a watch with
baseline `B` is an assistant text block found strictly after position
`B` in one of the observed file snapshots; content at or before the
baseline is never delivered. -/
theorem watchForResponse_baseline_blindness (baselineSize : Nat)
    (snaps : List (List JsonlLine)) :
    ∀ t ∈ (runWatch baselineSize snaps).delivered,
      ∃ s ∈ snaps, t ∈ assistantTexts (s.drop baselineSize) := by
  have key : ∀ (ss : List (List JsonlLine)) (st : WatchState),
      baselineSize ≤ st.cursor →
      ∀ t ∈ (ss.foldl (fun st f => watchChange f st) st).delivered,
        t ∈ st.delivered ∨ ∃ s ∈ ss, t ∈ assistantTexts (s.drop baselineSize) := by
    intro ss
    induction ss with
    | nil => intro st _ t ht; exact Or.inl ht
    | cons f fs ih =>
      intro st hc t ht
      rw [List.foldl_cons] at ht
      by_cases hterm : st.terminated
      · rcases ih _ (by simpa [watchChange, hterm] using hc) t
            (by simpa [watchChange, hterm] using ht) with h | ⟨s, hs, hmem⟩
        · exact Or.inl (by simpa [watchChange, hterm] using h)
        · exact Or.inr ⟨s, List.mem_cons_of_mem f hs, hmem⟩
      · have hc2 : baselineSize ≤ (watchChange f st).cursor := by
          simp only [watchChange, if_neg hterm, emitTexts_cursor]
          exact le_trans hc (le_max_left _ _)
        rcases ih _ hc2 t ht with h | ⟨s, hs, hmem⟩
        · have h2 : t ∈ (emitTexts st (assistantTexts (f.drop st.cursor))).delivered := by
            simpa [watchChange, hterm] using h
          rcases emitTexts_delivered_mem _ st t h2 with h3 | h3
          · exact Or.inl h3
          · refine Or.inr ⟨f, List.mem_cons_self f fs, ?_⟩
            have : f.drop st.cursor = (f.drop baselineSize).drop (st.cursor - baselineSize) := by
              rw [List.drop_drop, Nat.add_comm, Nat.sub_add_cancel hc]
            rw [this] at h3
            exact assistantTexts_drop_subset (f.drop baselineSize) _ t h3
        · exact Or.inr ⟨s, List.mem_cons_of_mem f hs, hmem⟩
  intro t ht
  rcases key snaps (watchInit baselineSize) (le_refl _) t ht with h | h
  · simp [watchInit] at h
  · exact h

/-- Concrete evaluation of C3: with a baseline of one record, a text
appended after the baseline is delivered and is found past the
baseline. -/
theorem watchForResponse_baseline_blindness_witness :
    ∃ s ∈ [[JsonlLine.mk "{old}" (some ⟨"assistant", none,
              some [⟨"text", some "Old message.", none, none⟩]⟩),
            JsonlLine.mk "{new}" (some ⟨"assistant", none,
              some [⟨"text", some "Build succeeded.", none, none⟩]⟩)]],
      "Build succeeded." ∈ assistantTexts (s.drop 1) :=
  watchForResponse_baseline_blindness 1 _ "Build succeeded." (by decide)

lemma flushActive_managerInv (s : ManagerState) (h : ManagerInv s) :
    ManagerInv (flushActive s) ∧ (flushActive s).active = none ∧
      (flushActive s).nextId = s.nextId := by
  obtain ⟨h1, h2, h3, h4⟩ := h
  cases ha : s.active with
  | none =>
    have hs : flushActive s = s := by simp [flushActive, ha]
    rw [hs]
    exact ⟨⟨h1, h2, h3, h4⟩, ha, rfl⟩
  | some w =>
    obtain ⟨hlt, hnm⟩ := h3 w ha
    have hs : flushActive s =
        { s with active := none, completed := s.completed ++ [w.id] } := by
      simp [flushActive, ha]
    rw [hs]
    refine ⟨⟨?_, ?_, ?_, ?_⟩, rfl, rfl⟩
    · refine List.Nodup.append h1 (List.nodup_singleton _) ?_
      intro u hu hu'
      rw [List.mem_singleton] at hu'
      subst hu'
      exact hnm hu
    · intro id hid
      rcases List.mem_append.mp hid with hid | hid
      · exact h2 id hid
      · exact (List.mem_singleton.mp hid) ▸ hlt
    · intro w2 hw2
      exact absurd hw2 (by simp)
    · intro id hid
      rcases h4 id hid with hm | ⟨w2, hw2, hid2⟩
      · exact Or.inl (List.mem_append.mpr (Or.inl hm))
      · rw [ha] at hw2
        injection hw2 with hww
        subst hww
        exact Or.inl (List.mem_append.mpr (Or.inr (List.mem_singleton.mpr hid2.symm)))

lemma managerStep_inv (s : ManagerState) (e : MEvent) (he : e ≠ MEvent.clear)
    (h : ManagerInv s) : ManagerInv (managerStep s e) := by
  cases e with
  | start hasFile =>
    obtain ⟨⟨h1, h2, h3, h4⟩, hfa, hfn⟩ := flushActive_managerInv s h
    cases hasFile with
    | true =>
      show ManagerInv
        { flushActive s with
            generation := (flushActive s).generation + 1
            active := some ⟨(flushActive s).nextId, (flushActive s).generation + 1⟩
            nextId := (flushActive s).nextId + 1 }
      refine ⟨h1, ?_, ?_, ?_⟩
      · intro id hid
        exact Nat.lt_succ_of_lt (h2 id hid)
      · intro w hw
        injection hw with hww
        subst hww
        exact ⟨Nat.lt_succ_self _, fun hm => absurd (h2 _ hm) (lt_irrefl _)⟩
      · intro id hid
        rcases Nat.lt_succ_iff_lt_or_eq.mp hid with hlt | heq
        · rcases h4 id hlt with hm | ⟨w, hw, _⟩
          · exact Or.inl hm
          · rw [hfa] at hw; exact absurd hw (by simp)
        · exact Or.inr ⟨_, rfl, heq.symm⟩
    | false =>
      show ManagerInv
        { flushActive s with
            generation := (flushActive s).generation + 1
            active := none
            completed := (flushActive s).completed ++ [(flushActive s).nextId]
            nextId := (flushActive s).nextId + 1 }
      refine ⟨?_, ?_, ?_, ?_⟩
      · refine List.Nodup.append h1 (List.nodup_singleton _) ?_
        intro u hu hu'
        rw [List.mem_singleton] at hu'
        subst hu'
        exact absurd (h2 _ hu) (lt_irrefl _)
      · intro id hid
        rcases List.mem_append.mp hid with hid | hid
        · exact Nat.lt_succ_of_lt (h2 id hid)
        · exact (List.mem_singleton.mp hid) ▸ Nat.lt_succ_self _
      · intro w hw
        exact absurd hw (by simp)
      · intro id hid
        rcases Nat.lt_succ_iff_lt_or_eq.mp hid with hlt | heq
        · rcases h4 id hlt with hm | ⟨w, hw, _⟩
          · exact Or.inl (List.mem_append.mpr (Or.inl hm))
          · rw [hfa] at hw; exact absurd hw (by simp)
        · exact Or.inl (List.mem_append.mpr (Or.inr (List.mem_singleton.mpr heq)))
  | watcherEnd => exact (flushActive_managerInv s h).1
  | stopAndFlush => exact (flushActive_managerInv s h).1
  | pollRotate => exact h
  | pollTimeout g =>
    show ManagerInv (managerStep s (.pollTimeout g))
    cases ha : s.active with
    | none => simpa [managerStep, ha] using h
    | some w =>
      by_cases hg : w.gen = g ∧ g = s.generation
      · simpa [managerStep, ha, hg] using (flushActive_managerInv s h).1
      · simpa [managerStep, ha, hg] using h
  | clear => exact absurd rfl he

lemma managerRun_inv (evs : List MEvent) (hclear : MEvent.clear ∉ evs) :
    ManagerInv (managerRun evs) := by
  have key : ∀ (es : List MEvent) (s : ManagerState), MEvent.clear ∉ es →
      ManagerInv s → ManagerInv (es.foldl managerStep s) := by
    intro es
    induction es with
    | nil => intro s _ h; exact h
    | cons e es ih =>
      intro s hne h
      rw [List.foldl_cons]
      refine ih _ (fun hm => hne (List.mem_cons_of_mem e hm)) ?_
      exact managerStep_inv s e (fun heq => hne (heq ▸ List.mem_cons_self e es)) h
  refine key evs managerInit hclear ?_
  exact ⟨List.nodup_nil, by simp [managerInit], by simp [managerInit], by simp [managerInit]⟩

/-- C1.  Exactly-once completion: in any run of the manager without a
`clear` (which by design discards a watcher without completing it),
every `startInjectionWatcher` call has its `onComplete` invoked exactly
once — by whichever of the termination paths fires (watcher end,
supersession by a new message, or compaction-poll timeout) — unless it
is the still-running active watch, in which case it has not yet been
invoked; no call is ever completed a second time. -/
theorem startInjectionWatcher_onComplete_exactly_once
    (evs : List MEvent) (hclear : MEvent.clear ∉ evs) :
    (∀ id, id < (managerRun evs).nextId →
      (managerRun evs).completed.count id =
        (match (managerRun evs).active with
         | some w => if w.id = id then 0 else 1
         | none => 1)) ∧
    ∀ id, (managerRun evs).nextId ≤ id → (managerRun evs).completed.count id = 0 := by
  obtain ⟨h1, h2, h3, h4⟩ := managerRun_inv evs hclear
  constructor
  · intro id hid
    cases ha : (managerRun evs).active with
    | none =>
      rcases h4 id hid with hm | ⟨w, hw, _⟩
      · simpa using List.count_eq_one_of_mem h1 hm
      · rw [ha] at hw; exact absurd hw (by simp)
    | some w =>
      by_cases hwid : w.id = id
      · have := (h3 w ha).2
        rw [hwid] at this
        simp [hwid, List.count_eq_zero_of_not_mem this]
      · rcases h4 id hid with hm | ⟨w2, hw2, hid2⟩
        · simpa [hwid] using List.count_eq_one_of_mem h1 hm
        · rw [ha] at hw2
          cases hw2
          exact absurd hid2 hwid
  · intro id hid
    refine List.count_eq_zero_of_not_mem fun hm => ?_
    exact absurd (h2 id hm) (not_lt.mpr hid)

/-- Concrete evaluation of C1: two injections, the first superseded by
the second, the second ended by its watcher; each completes exactly
once. -/
theorem startInjectionWatcher_onComplete_exactly_once_witness :
    (managerRun [MEvent.start true, MEvent.stopAndFlush, MEvent.start true,
        MEvent.watcherEnd]).completed.count 0 = 1 ∧
    (managerRun [MEvent.start true, MEvent.stopAndFlush, MEvent.start true,
        MEvent.watcherEnd]).completed.count 1 = 1 := by
  have h := startInjectionWatcher_onComplete_exactly_once
    [MEvent.start true, MEvent.stopAndFlush, MEvent.start true, MEvent.watcherEnd]
    (by decide)
  constructor
  · have := h.1 0 (by decide)
    simpa using this.trans (by decide)
  · have := h.1 1 (by decide)
    simpa using this.trans (by decide)

lemma newestJsonl_spec (files : List SessFile) :
    ∀ f, newestJsonl files = some f →
      (f ∈ files ∧ hasJsonlExt f.name = true) ∧
        ∀ g ∈ files, hasJsonlExt g.name = true → g.mtime ≤ f.mtime := by
  have key : ∀ (fs : List SessFile) (acc : Option SessFile), ∀ f,
      (fs.foldl (fun acc f =>
        match acc with
        | none => some f
        | some g => if g.mtime < f.mtime then some f else some g) acc) = some f →
      (acc = some f ∨ f ∈ fs) ∧
        (∀ g, acc = some g → g.mtime ≤ f.mtime) ∧
        ∀ g ∈ fs, g.mtime ≤ f.mtime := by
    intro fs
    induction fs with
    | nil =>
      intro acc f hf
      rw [List.foldl_nil] at hf
      refine ⟨Or.inl hf, fun g hg => ?_, fun g hg => absurd hg (List.not_mem_nil g)⟩
      rw [hf] at hg
      injection hg with h
      exact le_of_eq (congrArg SessFile.mtime h.symm)
    | cons x xs ih =>
      intro acc f hf
      rw [List.foldl_cons] at hf
      cases acc with
      | none =>
        obtain ⟨m1, m2, m3⟩ := ih (some x) f hf
        refine ⟨?_, ?_, ?_⟩
        · rcases m1 with h | h
          · injection h with h
            exact Or.inr (h ▸ List.mem_cons_self x xs)
          · exact Or.inr (List.mem_cons_of_mem x h)
        · intro g hg
          exact absurd hg (by simp)
        · intro g hg
          rcases List.mem_cons.mp hg with rfl | hg
          · exact m2 g rfl
          · exact m3 g hg
      | some a =>
        by_cases hlt : a.mtime < x.mtime
        · simp only [if_pos hlt] at hf
          obtain ⟨m1, m2, m3⟩ := ih (some x) f hf
          refine ⟨?_, ?_, ?_⟩
          · rcases m1 with h | h
            · injection h with h
              exact Or.inr (h ▸ List.mem_cons_self x xs)
            · exact Or.inr (List.mem_cons_of_mem x h)
          · intro g hg
            injection hg with hg
            subst hg
            exact le_trans (le_of_lt hlt) (m2 x rfl)
          · intro g hg
            rcases List.mem_cons.mp hg with rfl | hg
            · exact m2 g rfl
            · exact m3 g hg
        · simp only [if_neg hlt] at hf
          obtain ⟨m1, m2, m3⟩ := ih (some a) f hf
          refine ⟨?_, ?_, ?_⟩
          · rcases m1 with h | h
            · exact Or.inl h
            · exact Or.inr (List.mem_cons_of_mem x h)
          · exact m2
          · intro g hg
            rcases List.mem_cons.mp hg with rfl | hg
            · exact le_trans (not_lt.mp hlt) (m2 a rfl)
            · exact m3 g hg
  intro f hf
  obtain ⟨m1, m2, m3⟩ := key _ none f hf
  rcases m1 with h | h
  · exact absurd h (by simp)
  · have hmem := List.mem_filter.mp h
    refine ⟨⟨hmem.1, hmem.2⟩, fun g hg hext => ?_⟩
    exact m3 g (List.mem_filter.mpr ⟨hg, hext⟩)

lemma dirEntry_dirName (d : ProjectDir) :
    ∀ e, dirEntry d = some e → e.dirName = d.dirName := by
  intro e he
  unfold dirEntry at he
  cases h : newestJsonl d.files with
  | none => rw [h] at he; exact absurd he (by simp)
  | some f =>
    rw [h] at he
    injection he with he
    rw [← he]

lemma filterMap_dirEntry_nodup (root : List ProjectDir)
    (hroot : (root.map ProjectDir.dirName).Nodup) :
    ((root.filterMap dirEntry).map SessionEntry.dirName).Nodup := by
  induction root with
  | nil => simp
  | cons d ds ih =>
    rw [List.map_cons] at hroot
    obtain ⟨hd, hds⟩ := List.nodup_cons.mp hroot
    rw [List.filterMap_cons]
    cases he : dirEntry d with
    | none => exact ih hds
    | some e =>
      rw [List.map_cons, List.nodup_cons]
      refine ⟨?_, ih hds⟩
      intro hmem
      rw [List.mem_map] at hmem
      obtain ⟨e2, he2, hname⟩ := hmem
      rw [List.mem_filterMap] at he2
      obtain ⟨d2, hd2, hde2⟩ := he2
      refine hd ?_
      rw [List.mem_map]
      refine ⟨d2, hd2, ?_⟩
      rw [← dirEntry_dirName d2 e2 hde2, hname, dirEntry_dirName d e he]

/-- C4.  `listSessions` returns at most `limit` entries, at most one
entry per project directory, each entry being built from the newest
`.jsonl` file of its directory by mtime, and the entries are globally
sorted by mtime descending. -/
theorem listSessions_spec (limit : Nat) (root : List ProjectDir)
    (hroot : (root.map ProjectDir.dirName).Nodup) :
    (listSessions limit root).length ≤ limit ∧
    ((listSessions limit root).map SessionEntry.dirName).Nodup ∧
    (∀ e ∈ listSessions limit root, ∃ d ∈ root, e.dirName = d.dirName ∧
      (∃ f ∈ d.files, hasJsonlExt f.name = true ∧
        e.sessionId = stripJsonlExt f.name ∧
        e.lastMessage = f.lastMessage ∧ e.mtime = f.mtime) ∧
      ∀ g ∈ d.files, hasJsonlExt g.name = true → g.mtime ≤ e.mtime) ∧
    (listSessions limit root).Pairwise (fun a b => b.mtime ≤ a.mtime) := by
  have hperm : ((root.filterMap dirEntry).insertionSort entryGE).Perm
      (root.filterMap dirEntry) := List.perm_insertionSort entryGE _
  have hsorted : ((root.filterMap dirEntry).insertionSort entryGE).Pairwise entryGE :=
    List.sorted_insertionSort entryGE (root.filterMap dirEntry)
  refine ⟨?_, ?_, ?_, ?_⟩
  · exact le_trans (List.length_take_le _ _) (le_refl _)
  · have h1 : ((root.filterMap dirEntry).insertionSort entryGE).Nodup := by
      refine hperm.nodup_iff.mpr ?_
      exact (filterMap_dirEntry_nodup root hroot).of_map
    have h2 : (((root.filterMap dirEntry).insertionSort entryGE).map
        SessionEntry.dirName).Nodup := by
      have := filterMap_dirEntry_nodup root hroot
      exact (hperm.map SessionEntry.dirName).nodup_iff.mpr this
    exact h2.sublist ((List.take_sublist _ _).map SessionEntry.dirName)
  · intro e he
    have he2 : e ∈ root.filterMap dirEntry :=
      hperm.mem_iff.mp ((List.take_sublist _ _).mem he)
    rw [List.mem_filterMap] at he2
    obtain ⟨d, hd, hde⟩ := he2
    unfold dirEntry at hde
    cases hn : newestJsonl d.files with
    | none => rw [hn] at hde; exact absurd hde (by simp)
    | some f =>
      rw [hn] at hde
      injection hde with hde
      obtain ⟨⟨hfm, hfe⟩, hmax⟩ := newestJsonl_spec d.files f hn
      refine ⟨d, hd, by rw [← hde], ⟨f, hfm, hfe, by rw [← hde], by rw [← hde],
        by rw [← hde]⟩, ?_⟩
      intro g hg hext
      rw [← hde]
      exact hmax g hg hext
  · exact hsorted.sublist (List.take_sublist _ _)

/-- Concrete evaluation of C4: two directories, one with two `.jsonl`
files; only its newer file is listed and the result is mtime-sorted. -/
theorem listSessions_spec_witness :
    (listSessions 20
        [⟨"-Users-luca-alpha", [⟨"old.jsonl", 1, "old message"⟩,
            ⟨"new.jsonl", 3, "new message"⟩]⟩,
         ⟨"-Users-luca-beta", [⟨"s.jsonl", 2, "beta message"⟩]⟩]).length ≤ 20 ∧
    ((listSessions 20
        [⟨"-Users-luca-alpha", [⟨"old.jsonl", 1, "old message"⟩,
            ⟨"new.jsonl", 3, "new message"⟩]⟩,
         ⟨"-Users-luca-beta", [⟨"s.jsonl", 2, "beta message"⟩]⟩]).map
      SessionEntry.dirName).Nodup := by
  have h := listSessions_spec 20
    [⟨"-Users-luca-alpha", [⟨"old.jsonl", 1, "old message"⟩,
        ⟨"new.jsonl", 3, "new message"⟩]⟩,
     ⟨"-Users-luca-beta", [⟨"s.jsonl", 2, "beta message"⟩]⟩]
    (by decide)
  exact ⟨h.1, h.2.1⟩

lemma pickNewest_aux (f : TmuxPane → Nat) (ps : List TmuxPane) :
    ∀ (acc : Option TmuxPane) (m : TmuxPane),
      ps.foldl
        (fun acc p =>
          match acc with
          | none => some p
          | some q => if f q < f p then some p else some q) acc = some m →
      (acc = some m ∨ m ∈ ps) ∧ (∀ g, acc = some g → f g ≤ f m) ∧
        ∀ g ∈ ps, f g ≤ f m := by
  induction ps with
  | nil =>
    intro acc m hm
    rw [List.foldl_nil] at hm
    refine ⟨Or.inl hm, fun g hg => ?_, fun g hg => absurd hg (List.not_mem_nil g)⟩
    rw [hm] at hg
    injection hg with h
    exact le_of_eq (congrArg f h.symm)
  | cons x xs ih =>
    intro acc m hm
    rw [List.foldl_cons] at hm
    cases acc with
    | none =>
      obtain ⟨m1, m2, m3⟩ := ih (some x) m hm
      refine ⟨?_, fun g hg => absurd hg (by simp), fun g hg => ?_⟩
      · rcases m1 with h | h
        · injection h with h
          exact Or.inr (h ▸ List.mem_cons_self x xs)
        · exact Or.inr (List.mem_cons_of_mem x h)
      · rcases List.mem_cons.mp hg with rfl | hg
        · exact m2 g rfl
        · exact m3 g hg
    | some a =>
      by_cases hlt : f a < f x
      · simp only [if_pos hlt] at hm
        obtain ⟨m1, m2, m3⟩ := ih (some x) m hm
        refine ⟨?_, fun g hg => ?_, fun g hg => ?_⟩
        · rcases m1 with h | h
          · injection h with h
            exact Or.inr (h ▸ List.mem_cons_self x xs)
          · exact Or.inr (List.mem_cons_of_mem x h)
        · injection hg with hg
          subst hg
          exact le_trans (le_of_lt hlt) (m2 x rfl)
        · rcases List.mem_cons.mp hg with rfl | hg
          · exact m2 g rfl
          · exact m3 g hg
      · simp only [if_neg hlt] at hm
        obtain ⟨m1, m2, m3⟩ := ih (some a) m hm
        refine ⟨?_, m2, fun g hg => ?_⟩
        · rcases m1 with h | h
          · exact Or.inl h
          · exact Or.inr (List.mem_cons_of_mem x h)
        · rcases List.mem_cons.mp hg with rfl | hg
          · exact le_trans (not_lt.mp hlt) (m2 a rfl)
          · exact m3 g hg

lemma pickNewest_isSome (f : TmuxPane → Nat) (x : TmuxPane) (xs : List TmuxPane) :
    ∃ m, pickNewest f (x :: xs) = some m := by
  have key : ∀ (l : List TmuxPane) (a : TmuxPane),
      ∃ m, l.foldl
        (fun acc p =>
          match acc with
          | none => some p
          | some q => if f q < f p then some p else some q) (some a) = some m := by
    intro l
    induction l with
    | nil => intro a; exact ⟨a, rfl⟩
    | cons y ys ih =>
      intro a
      rw [List.foldl_cons]
      by_cases hlt : f a < f y
      · simpa [hlt] using ih y
      · simpa [hlt] using ih a
  simpa [pickNewest] using key xs x

/-- C5.  When several agent panes match the target cwd, the locator
returns the matching pane whose agent child process has the most recent
start time, a pane with no determinable start time counting as start
time 0; and the locator is a pure function of the pane contents. -/
theorem findClaudePane_tiebreak (childStart : Nat → Option Nat)
    (panes : List TmuxPane) (targetCwd : String)
    (h2 : 2 ≤ ((panes.filter isClaudePane).filter
      (fun p => p.cwd == targetCwd)).length) :
    ∃ p ∈ (panes.filter isClaudePane).filter (fun p => p.cwd == targetCwd),
      findClaudePane childStart panes targetCwd = .found p.paneId ∧
        ∀ q ∈ (panes.filter isClaudePane).filter (fun p => p.cwd == targetCwd),
          (childStart q.shellPid).getD 0 ≤ (childStart p.shellPid).getD 0 := by
  cases hms : (panes.filter isClaudePane).filter (fun p => p.cwd == targetCwd) with
  | nil =>
    rw [hms] at h2
    simp only [List.length_nil] at h2
    omega
  | cons p rest =>
    cases rest with
    | nil =>
      rw [hms] at h2
      simp only [List.length_cons, List.length_nil] at h2
      omega
    | cons q rest =>
      have hcp : p ∈ panes.filter isClaudePane := by
        have : p ∈ (panes.filter isClaudePane).filter (fun p => p.cwd == targetCwd) := by
          rw [hms]; exact List.mem_cons_self p _
        exact (List.mem_filter.mp this).1
      have hpanes : panes.isEmpty = false := by
        rcases panes with _ | _
        · simp at hcp
        · rfl
      have hcps : (panes.filter isClaudePane).isEmpty = false := by
        cases hl : panes.filter isClaudePane with
        | nil => rw [hl] at hcp; exact absurd hcp (List.not_mem_nil p)
        | cons _ _ => rfl
      obtain ⟨m, hm⟩ := pickNewest_isSome (paneStart childStart) p (q :: rest)
      have heval : findClaudePane childStart panes targetCwd = .found m.paneId := by
        rw [findClaudePane, if_neg (by rw [hpanes]; exact Bool.false_ne_true),
          if_neg (by rw [hcps]; exact Bool.false_ne_true), hms]
        show (match pickNewest (paneStart childStart) (p :: q :: rest) with
          | some m => FindResult.found m.paneId
          | none => FindResult.notFound FindReason.ambiguous) = _
        rw [hm]
      obtain ⟨hmem, _, hmax⟩ := pickNewest_aux (paneStart childStart) (p :: q :: rest)
        none m hm
      refine ⟨m, ?_, heval, ?_⟩
      · rcases hmem with h | h
        · exact absurd h (by simp)
        · exact h
      · intro g hg
        exact hmax g hg

/-- Concrete evaluation of C5, mirroring the tie-break test: two agent
panes at the same cwd; the one whose child started later wins. -/
theorem findClaudePane_tiebreak_witness :
    ∃ p ∈ ([⟨"%1", 100, "claude", "/Users/luca/project"⟩,
            ⟨"%2", 200, "claude", "/Users/luca/project"⟩] :
        List TmuxPane).filter isClaudePane |>.filter
          (fun p => p.cwd == "/Users/luca/project"),
      findClaudePane
          (fun pid => if pid = 100 then some 1 else if pid = 200 then some 5 else none)
          [⟨"%1", 100, "claude", "/Users/luca/project"⟩,
           ⟨"%2", 200, "claude", "/Users/luca/project"⟩]
          "/Users/luca/project" = .found p.paneId ∧
        ∀ q ∈ ([⟨"%1", 100, "claude", "/Users/luca/project"⟩,
                ⟨"%2", 200, "claude", "/Users/luca/project"⟩] :
            List TmuxPane).filter isClaudePane |>.filter
              (fun p => p.cwd == "/Users/luca/project"),
          ((fun pid => if pid = 100 then some 1 else if pid = 200 then some 5
              else none) q.shellPid).getD 0 ≤
            ((fun pid => if pid = 100 then some 1 else if pid = 200 then some 5
              else none) p.shellPid).getD 0 :=
  findClaudePane_tiebreak
    (fun pid => if pid = 100 then some 1 else if pid = 200 then some 5 else none)
    [⟨"%1", 100, "claude", "/Users/luca/project"⟩,
     ⟨"%2", 200, "claude", "/Users/luca/project"⟩]
    "/Users/luca/project" (by decide)

/-- C7.  A tail text whose trimmed form is longer than 10 characters
and ends with a question mark, and which matches none of the y/n,
enter, or confirm patterns, is classified as `QUESTION`. -/
theorem classifyWaitingType_question (text : String)
    (hyn : yesNoMatch (jsTrim text) = false)
    (hen : enterMatch (jsTrim text) = false)
    (hq : (jsTrim text).data.getLast? = some '?')
    (hlen : 10 < (jsTrim text).length) :
    classifyWaitingType text = some WaitingType.QUESTION := by
  unfold classifyWaitingType
  rw [if_neg (by rw [hyn]; exact Bool.false_ne_true),
    if_neg (by rw [hen]; exact Bool.false_ne_true),
    if_pos (by rw [hq]; simp [hlen])]

/-- Concrete evaluation of C7 on a generic question. -/
theorem classifyWaitingType_question_witness :
    classifyWaitingType "What should I name the new file?" =
      some WaitingType.QUESTION :=
  classifyWaitingType_question "What should I name the new file?"
    (by decide) (by decide) (by decide) (by decide)

/-- C8.  After `respondToPermission(requestId, action)` with action
`approve` or `deny`, the config directory exists and the file
`<cfg>/permission-response-<requestId>` has the literal action string
as its entire content. -/
theorem respondToPermission_spec (cfgDir : String) (fs : BridgeFS)
    (requestId action : String)
    (haction : action = "approve" ∨ action = "deny") :
    cfgDir ∈ (respondToPermission cfgDir fs requestId action).dirs ∧
    readFileFS (respondToPermission cfgDir fs requestId action)
      (permissionResponsePath cfgDir requestId) = some action := by
  clear haction
  constructor
  · show cfgDir ∈ (writeFileFS (mkdirRecursive fs cfgDir) _ _).dirs
    have : (writeFileFS (mkdirRecursive fs cfgDir)
        (permissionResponsePath cfgDir requestId) action).dirs =
        (mkdirRecursive fs cfgDir).dirs := rfl
    rw [this]
    unfold mkdirRecursive
    by_cases h : cfgDir ∈ fs.dirs
    · rw [if_pos h]; exact h
    · rw [if_neg h]; exact List.mem_cons_self _ _
  · show readFileFS (writeFileFS (mkdirRecursive fs cfgDir) _ _) _ = _
    unfold readFileFS writeFileFS
    simp

/-- Concrete evaluation of C8: the round trip of the spec scenario. -/
theorem respondToPermission_spec_witness :
    readFileFS (respondToPermission "/home/u/.codedove" ⟨[], []⟩ "xyz" "approve")
      (permissionResponsePath "/home/u/.codedove" "xyz") = some "approve" :=
  (respondToPermission_spec "/home/u/.codedove" ⟨[], []⟩ "xyz" "approve"
    (Or.inl rfl)).2

lemma processMessages_error (existing : Option String) (msgs : List SDKMessage) :
    ∀ res cap, (∃ m ∈ msgs, m.type = "result" ∧ m.subtype ≠ some "success") →
      ∃ e, processMessages existing msgs res cap = .error e := by
  induction msgs with
  | nil =>
    intro res cap h
    obtain ⟨m, hm, _⟩ := h
    exact absurd hm (List.not_mem_nil m)
  | cons m rest ih =>
    intro res cap h
    by_cases hbad : (m.type == "result" && !(m.subtype == some "success")) = true
    · refine ⟨"Agent error (" ++ m.subtype.getD "undefined" ++ ")", ?_⟩
      unfold processMessages
      rw [if_pos hbad]
    · obtain ⟨m2, hm2, htype, hsub⟩ := h
      rcases List.mem_cons.mp hm2 with rfl | hm2
      · exfalso
        apply hbad
        simp only [Bool.and_eq_true, Bool.not_eq_true']
        refine ⟨by simp [htype], ?_⟩
        simp only [beq_eq_false_iff_ne, ne_eq]
        exact hsub
      · obtain ⟨e, he⟩ := ih _ _ ⟨m2, hm2, htype, hsub⟩
        refine ⟨e, ?_⟩
        unfold processMessages
        rw [if_neg hbad]
        exact he

/-- C9.  If the message stream contains a `result` record whose subtype
is not `success`, `runAgentTurn` throws and the per-chat session map is
left unchanged; and whenever the session map changes, the turn
completed without error. -/
theorem runAgentTurn_spec (narrate : String → String) (ss : Sessions)
    (chatId : Nat) (msgs : List SDKMessage)
    (hbad : ∃ m ∈ msgs, m.type = "result" ∧ m.subtype ≠ some "success") :
    (∃ e, (runAgentTurn narrate ss chatId msgs).1 = .error e) ∧
    (runAgentTurn narrate ss chatId msgs).2 = ss ∧
    ∀ (narrate2 : String → String) (ss2 : Sessions) (chatId2 : Nat)
      (msgs2 : List SDKMessage),
      (runAgentTurn narrate2 ss2 chatId2 msgs2).2 ≠ ss2 →
      ∃ v, (runAgentTurn narrate2 ss2 chatId2 msgs2).1 = .ok v := by
  obtain ⟨e, he⟩ := processMessages_error (sessionsGet ss chatId) msgs "" none hbad
  refine ⟨⟨e, ?_⟩, ?_, ?_⟩
  · unfold runAgentTurn
    rw [he]
  · unfold runAgentTurn
    rw [he]
  · intro narrate2 ss2 chatId2 msgs2 hchanged
    unfold runAgentTurn at hchanged ⊢
    cases hp : processMessages (sessionsGet ss2 chatId2) msgs2 "" none with
    | error e2 => rw [hp] at hchanged; exact absurd rfl hchanged
    | ok v =>
      obtain ⟨res, cap⟩ := v
      exact ⟨_, rfl⟩

/-- Concrete evaluation of C9: a stream ending in an error result
throws and stores nothing. -/
theorem runAgentTurn_spec_witness :
    (∃ e, (runAgentTurn id [(7, "old-session")] 7
        [⟨"system", some "init", some "sid-1", ""⟩,
         ⟨"result", some "error_max_turns", none, ""⟩]).1 = .error e) ∧
    (runAgentTurn id [(7, "old-session")] 7
        [⟨"system", some "init", some "sid-1", ""⟩,
         ⟨"result", some "error_max_turns", none, ""⟩]).2 = [(7, "old-session")] := by
  have h := runAgentTurn_spec id [(7, "old-session")] 7
    [⟨"system", some "init", some "sid-1", ""⟩,
     ⟨"result", some "error_max_turns", none, ""⟩]
    ⟨⟨"result", some "error_max_turns", none, ""⟩, by decide, rfl, by decide⟩
  exact ⟨h.1, h.2.1⟩

lemma pendingGet_delete (m : PendingImages) (k : String) :
    pendingGet (pendingDelete m k) k = none := by
  unfold pendingGet pendingDelete
  have hf : List.find? (fun kv => kv.1 == k)
      (List.filter (fun kv => !(kv.1 == k)) m) = none := by
    rw [List.find?_eq_none]
    intro kv hkv h1
    have h1b : (kv.1 == k) = true := h1
    have h2 := (List.mem_filter.mp hkv).2
    rw [Bool.not_eq_true'] at h2
    rw [h1b] at h2
    exact Bool.false_ne_true h2.symm
  rw [hf]
  rfl

/-- C10.  With a pending image-count request set whose advertised
maximum is the number of stored images: a reply parsing as an integer
`p ≥ 1` makes the handler send `min(p, available)` of the stored
images, delete the `pendingImages` entry, clear the pending-count
state, and not start a turn; a reply that does not parse as a number
clears the pending-count state and falls through to normal message
handling with the stored images untouched. -/
theorem processTextTurn_pendingCount_spec
    (shuffle : List DetectedImage → List DetectedImage)
    (st : ImageState) (text : String) (pc : PendingCount)
    (imgs : List DetectedImage)
    (hpc : st.pendingImageCount = some pc)
    (himgs : pendingGet st.pendingImages pc.key = some imgs)
    (hmax : pc.max = imgs.length)
    (hshuffle : ∀ l, (shuffle l).length = l.length) :
    (∀ p : Int, jsParseInt text = some p → 1 ≤ p →
      ∃ sent, (processTextTurnPendingCount shuffle st text).1 =
          TurnAction.sentImages sent ∧
        sent.length = min p.toNat imgs.length ∧
        (processTextTurnPendingCount shuffle st text).2.pendingImageCount = none ∧
        pendingGet (processTextTurnPendingCount shuffle st text).2.pendingImages
          pc.key = none) ∧
    (jsParseInt text = none →
      (processTextTurnPendingCount shuffle st text).1 = TurnAction.fallThrough ∧
      (processTextTurnPendingCount shuffle st text).2.pendingImageCount = none ∧
      (processTextTurnPendingCount shuffle st text).2.pendingImages =
        st.pendingImages) := by
  constructor
  · intro p hp hp1
    have heval : processTextTurnPendingCount shuffle st text =
        (TurnAction.sentImages ((shuffle imgs).take (min p.toNat pc.max)),
         { pendingImageCount := none,
           pendingImages := pendingDelete st.pendingImages pc.key }) := by
      unfold processTextTurnPendingCount
      rw [hpc]
      try dsimp only
      rw [hp]
      try dsimp only
      rw [if_pos hp1]
      try dsimp only
      rw [himgs]
    refine ⟨(shuffle imgs).take (min p.toNat pc.max), ?_, ?_, ?_, ?_⟩
    · rw [heval]
    · rw [List.length_take, hshuffle, hmax]
      omega
    · rw [heval]
    · rw [heval]
      exact pendingGet_delete st.pendingImages pc.key
  · intro hp
    have heval : processTextTurnPendingCount shuffle st text =
        (TurnAction.fallThrough,
         { pendingImageCount := none, pendingImages := st.pendingImages }) := by
      unfold processTextTurnPendingCount
      rw [hpc]
      try dsimp only
      rw [hp]
    rw [heval]
    exact ⟨rfl, rfl, rfl⟩

/-- Concrete evaluation of C10: three stored images, the reply `2`
sends two of them; the reply `soon` falls through. -/
theorem processTextTurn_pendingCount_spec_witness :
    (∃ sent,
      (processTextTurnPendingCount id
        ⟨some ⟨"k1", 3⟩, [("k1", [⟨"a", "image/png"⟩, ⟨"b", "image/png"⟩,
          ⟨"c", "image/jpeg"⟩])]⟩ "2").1 = TurnAction.sentImages sent ∧
      sent.length = min (Int.toNat 2) 3 ∧
      (processTextTurnPendingCount id
        ⟨some ⟨"k1", 3⟩, [("k1", [⟨"a", "image/png"⟩, ⟨"b", "image/png"⟩,
          ⟨"c", "image/jpeg"⟩])]⟩ "2").2.pendingImageCount = none ∧
      pendingGet (processTextTurnPendingCount id
        ⟨some ⟨"k1", 3⟩, [("k1", [⟨"a", "image/png"⟩, ⟨"b", "image/png"⟩,
          ⟨"c", "image/jpeg"⟩])]⟩ "2").2.pendingImages "k1" = none) ∧
    (processTextTurnPendingCount id
        ⟨some ⟨"k1", 3⟩, [("k1", [⟨"a", "image/png"⟩, ⟨"b", "image/png"⟩,
          ⟨"c", "image/jpeg"⟩])]⟩ "soon").1 = TurnAction.fallThrough := by
  have h2 := processTextTurn_pendingCount_spec id
    ⟨some ⟨"k1", 3⟩, [("k1", [⟨"a", "image/png"⟩, ⟨"b", "image/png"⟩,
      ⟨"c", "image/jpeg"⟩])]⟩ "2" ⟨"k1", 3⟩
    [⟨"a", "image/png"⟩, ⟨"b", "image/png"⟩, ⟨"c", "image/jpeg"⟩]
    rfl (by decide) rfl (fun _ => rfl)
  have hsoon := processTextTurn_pendingCount_spec id
    ⟨some ⟨"k1", 3⟩, [("k1", [⟨"a", "image/png"⟩, ⟨"b", "image/png"⟩,
      ⟨"c", "image/jpeg"⟩])]⟩ "soon" ⟨"k1", 3⟩
    [⟨"a", "image/png"⟩, ⟨"b", "image/png"⟩, ⟨"c", "image/jpeg"⟩]
    rfl (by decide) rfl (fun _ => rfl)
  refine ⟨h2.1 2 (by decide) (by decide), (hsoon.2 (by decide)).1⟩

/-- Concrete evaluation of C6: a blank line, a malformed line, a user
record and two assistant records. -/
theorem parseJsonlLines_spec_witness :
    (parseJsonlLines "/home/u"
        [⟨"  ", none⟩,
         ⟨"not json", none⟩,
         ⟨"{u}", some ⟨"user", none, none⟩⟩,
         ⟨"{a1}", some ⟨"assistant", some "/tmp/p",
            some [⟨"text", some "First.", none, none⟩]⟩⟩,
         ⟨"{a2}", some ⟨"assistant", none,
            some [⟨"text", some "Second.", none, none⟩]⟩⟩]).allMessages =
      ["First.", "Second."] ∧
    processLine "/home/u" ⟨"/home/u", "", [], []⟩ ⟨"  ", none⟩ =
      ⟨"/home/u", "", [], []⟩ := by
  constructor
  · rw [(parseJsonlLines_spec "/home/u" _).1]
    decide
  · exact (parseJsonlLines_spec "/home/u" []).2.2 _ _ (Or.inl (by decide))

end Codedove

